/-
Verification of the Erlay transaction-propagation simulator
(sources: src/peer.rs, src/recset.rs, src/messages.rs,
src/traffic_counter.rs, src/main.rs).

Shallow embedding conventions:
* Rust `u64`/`u32` values are modelled as `Nat`; wrapping arithmetic is made
  explicit with `% 2 ^ 32` exactly where the Rust code works on `u32`.
* `HashMap<K, V>` is modelled as an association list `List (K × V)` whose
  `insert` replaces the first entry with the same key and otherwise appends.
  Iteration order of the model is the list order (the Rust iteration order is
  unspecified; every claim that depends on an order is stated relative to the
  model's order or is order-insensitive).
* Actor addresses `Addr<Peer>` are modelled by the `PeerId` of the peer they
  point to: in the simulator every address is created from exactly one peer.
* The external `minisketch` library is modelled semantically: a sketch is the
  set of ids added an odd number of times (BCH sketch addition is XOR, so a
  double add cancels), kept as a sorted list so that equal sketch states are
  definitionally comparable; `merge` is symmetric difference and `decode`
  succeeds exactly when the difference fits in the capacity.  The library's
  dependence of decoding on `set_seed` is not modelled; the `seed` value that
  the repository threads to the library is tracked faithfully.
* The external XorShift PRNG and the `rand` shuffle are abstracted as explicit
  function parameters (`sg` shuffles a list from a 64-bit seed and returns the
  next seed); theorems that need it assume the shuffle permutes its input,
  which holds for the real Fisher-Yates shuffle.
-/
import Mathlib

set_option maxHeartbeats 1000000
set_option maxRecDepth 100000

/-- PeerId from src/peer.rs: `enum PeerId { Public(u32), Private(u32) }`. -/
inductive PeerId where
  | Public : Nat → PeerId
  | Private : Nat → PeerId
deriving DecidableEq, Repr

/-- Into<u64> for PeerId (src/peer.rs lines 75-84): `Public(id) ↦ id + 1`,
`Private(id) ↦ (id + 1) << 16`, both computed on `u32` (wrapping) and then
zero-extended to `u64`. -/
def peer_id_into_u64 : PeerId → Nat
  | PeerId.Public i => (i + 1) % 2 ^ 32
  | PeerId.Private i => ((i + 1) % 2 ^ 32 * 2 ^ 16) % 2 ^ 32

/-- From<u64> for PeerId (src/peer.rs lines 65-73): `v < 1 << 16` gives
`Public(v as u32 - 1)` (wrapping subtraction models the release-mode `- 1`),
otherwise `Private(v as u32)`. -/
def peer_id_from_u64 (v : Nat) : PeerId :=
  if v < 2 ^ 16 then PeerId.Public ((v % 2 ^ 32 + (2 ^ 32 - 1)) % 2 ^ 32)
  else PeerId.Private (v % 2 ^ 32)

/-- Second definition, written from the spec's words (section 3, DATA MODEL):
"The inverse is: `v < 2^16` implies `Public(v - 1)`, else
`Private(v >> 16 - 1)`."  Used only to compare with `peer_id_from_u64`. -/
def spec_peer_id_from_u64 (v : Nat) : PeerId :=
  if v < 2 ^ 16 then PeerId.Public (v - 1)
  else PeerId.Private (v / 2 ^ 16 - 1)

section AssocList

variable {K V : Type} [DecidableEq K]

/-- Model of `HashMap::get`: the value at the first entry with key `k`. -/
def alLookup (k : K) : List (K × V) → Option V
  | [] => none
  | e :: es => if e.1 = k then some e.2 else alLookup k es

/-- Model of `HashMap::contains_key`. -/
def alContains (k : K) (l : List (K × V)) : Bool :=
  (alLookup k l).isSome

/-- Model of `HashMap::insert`: replace the first entry with key `k`, or
append a fresh entry. -/
def alInsert (k : K) (v : V) : List (K × V) → List (K × V)
  | [] => [(k, v)]
  | e :: es => if e.1 = k then (k, v) :: es else e :: alInsert k v es

theorem alInsert_of_not_contains {k : K} {v : V} :
    ∀ {l : List (K × V)}, alContains k l = false → alInsert k v l = l ++ [(k, v)]
  | [], _ => rfl
  | e :: es, h => by
    by_cases he : e.1 = k
    · exfalso
      simp [alContains, alLookup, he] at h
    · simp only [alInsert, if_neg he, List.cons_append, List.cons.injEq, true_and]
      apply alInsert_of_not_contains
      simpa [alContains, alLookup, he] using h

theorem alContains_append_singleton {k k' : K} {v : V} (l : List (K × V)) :
    alContains k (l ++ [(k', v)]) = (alContains k l || decide (k' = k)) := by
  induction l with
  | nil =>
    by_cases h : k' = k <;> simp [alContains, alLookup, h]
  | cons e es ih =>
    by_cases he : e.1 = k <;> simp only [List.cons_append, alContains, alLookup, he,
      if_true, if_false, Option.isSome_some, Bool.true_or] at ih ⊢ <;> simp [ih]

end AssocList

/-- Transaction payload (src/messages.rs: `Tx(pub [u8; 1024])`).  The payload
bytes themselves are opaque to every claim, so the payload is modelled as a
natural number; the SipHash short id is abstracted as a function parameter
`sid` wherever it matters. -/
abbrev Tx : Type := Nat

/-- Sketch element toggle: BCH sketch addition is XOR over GF(2^64) encodings,
so adding an id already present cancels it.  The state is kept as a sorted
list of the ids present an odd number of times. -/
def skAdd (x : Nat) (l : List Nat) : List Nat :=
  if x ∈ l then l.erase x else l.orderedInsert (· ≤ ·) x

/-- XOR-merge of two sketch states: symmetric difference, realised by toggling
every element of `b` into `a` (models `Minisketch::merge`). -/
def skMerge (a b : List Nat) : List Nat :=
  b.foldl (fun acc x => skAdd x acc) a

/-- Model of the external `Minisketch` object: the seed installed with
`set_seed` plus the semantic content of the sketch. -/
structure Minisketch where
  mseed : Option Nat
  elems : List Nat
deriving DecidableEq, Repr

/-- Serialized sketch bytes (`Vec<u8>`), modelled as the capacity it was
serialized at together with the semantic content; its byte length is the
library's `serialized_size()` = `64 * capacity / 8`. -/
structure Sketch where
  capacity : Nat
  elems : List Nat
deriving DecidableEq, Repr

/-- Byte length of a serialized sketch: 64-bit elements, so 8 bytes each. -/
def Sketch.byteLen (s : Sketch) : Nat := 8 * s.capacity

/-- RecSet from src/recset.rs, specialised (as in the simulator and the spec,
section 9) to 64-bit ids; the element type `V` of the repository is `Tx` here
and the `ShortId` trait is the explicit function argument of `insert`. -/
structure RecSet where
  capacity : Nat
  seed : Option Nat
  sketch : Minisketch
  map : List (Nat × Tx)
deriving DecidableEq, Repr

namespace RecSet

/-- RecSet::create_minisketch (src/recset.rs lines 59-68). -/
def create_minisketch (_capacity : Nat) (seed : Option Nat) : Minisketch :=
  { mseed := seed, elems := [] }

/-- RecSet::new (src/recset.rs lines 25-35). -/
def new (capacity : Nat) : RecSet :=
  { capacity, seed := none, sketch := create_minisketch capacity none, map := [] }

/-- RecSet::with_seed (src/recset.rs lines 38-47).  Note: the source stores
`seed: None` in the struct while creating the minisketch with `Some(seed)`. -/
def with_seed (capacity : Nat) (seed : Nat) : RecSet :=
  { capacity, seed := none, sketch := create_minisketch capacity (some seed),
    map := [] }

/-- RecSet::insert (src/recset.rs lines 51-57): if the short id is not yet a
key of `map`, insert into `map` and add the id to the sketch. -/
def insert (sid : Tx → Nat) (r : RecSet) (v : Tx) : RecSet :=
  let id := sid v
  if alContains id r.map then r
  else { r with map := alInsert id v r.map,
                sketch := { r.sketch with elems := skAdd id r.sketch.elems } }

/-- Membership test against `map`.  Modelled from the spec (section 4.1,
"contains(id) - membership test against `map`"): `Peer` calls
`reconciliation_set.contains`, but src/recset.rs as given does not define it. -/
def contains (id : Nat) (r : RecSet) : Bool :=
  alContains id r.map

/-- RecSet::sketch (src/recset.rs lines 160-167): serialise the current
sketch. -/
def sketchBytes (r : RecSet) : Sketch :=
  { capacity := r.capacity, elems := r.sketch.elems }

/-- RecSet::reconcile (src/recset.rs lines 70-93): deserialise both sketches
into fresh minisketches built under `(capacity, seed)`, XOR-merge, decode up
to `capacity` differences. -/
def reconcile (sketch_a sketch_b : Sketch) (capacity : Nat) (seed : Option Nat) :
    Option (List Nat) :=
  let a : Minisketch := { mseed := seed, elems := sketch_a.elems }
  let b : Minisketch := { mseed := seed, elems := sketch_b.elems }
  let merged := skMerge a.elems b.elems
  if merged.length ≤ capacity then some (merged.take capacity) else none

/-- RecSet::reconcile_with (src/recset.rs lines 96-98): calls the stateless
`reconcile` with this set's own sketch, capacity and stored `seed` field. -/
def reconcile_with (r : RecSet) (sketch_b : Sketch) : Option (List Nat) :=
  reconcile (sketchBytes r) sketch_b r.capacity r.seed

end RecSet

/-- Protocol messages from src/messages.rs.  `Addr<Peer>` fields are modelled
by the PeerId the address belongs to. -/
inductive Msg where
  | peerTx (fromId : PeerId) (data : Tx)
  | connect (fromAddr : PeerId) (fromId : PeerId)
  | reconcileRequest (fromAddr : PeerId) (fromId : PeerId) (sketch : Sketch)
  | reconcileResult (fromAddr : PeerId) (fromId : PeerId) (missing : List Nat)
  | txRequest (fromAddr : PeerId) (fromId : PeerId) (txid : Nat)
deriving DecidableEq, Repr

/-- Rust `std::mem::size_of::<PeerId>()`: a two-variant enum with a `u32`
payload occupies 8 bytes (4-byte discriminant + 4-byte payload). -/
def sizeof_peer_id : Nat := 8

/-- Rust `std::mem::size_of::<Tx>()` with `Tx(pub [u8; 1024])`. -/
def sizeof_tx : Nat := 1024

/-- Rust `std::mem::size_of::<u64>()`. -/
def sizeof_u64 : Nat := 8

/-- The `Traffic::size_bytes` implementations of src/messages.rs lines 62-90,
one arm per message type. -/
def Msg.size_bytes : Msg → Nat
  | Msg.peerTx _ _ => sizeof_tx + sizeof_peer_id
  | Msg.connect _ _ => sizeof_peer_id
  | Msg.reconcileRequest _ _ sketch => sizeof_peer_id + sketch.byteLen
  | Msg.reconcileResult _ _ missing => sizeof_peer_id + missing.length * sizeof_u64
  | Msg.txRequest _ _ _ => sizeof_peer_id + sizeof_u64

/-- Second definition, written from the spec's words (section 6, wire-format
table with `sizeof(PeerId) = 8`, `sizeof(Tx) = B = 1024`):
PeerTx = B + 8, Connect = 8, ReconcileRequest = 8 + len(sketch),
ReconcileResult = 8 + 8 * len(missing), TxRequest = 16. -/
def spec_wire_size : Msg → Nat
  | Msg.peerTx _ _ => 1024 + 8
  | Msg.connect _ _ => 8
  | Msg.reconcileRequest _ _ sketch => 8 + sketch.byteLen
  | Msg.reconcileResult _ _ missing => 8 + 8 * missing.length
  | Msg.txRequest _ _ _ => 16

/-- Sum of the `size_bytes` of a batch of outgoing (target address, message)
pairs; models the per-send `bytes_sent += msg.size_bytes()` accumulation. -/
def sendsBytes (l : List (PeerId × Msg)) : Nat :=
  (l.map (fun e => e.2.size_bytes)).sum

/-- State of one peer (struct `Peer`, src/peer.rs lines 28-54), minus the
actor plumbing (`Addr` handles are PeerIds here, the traffic-counter handle
is not part of any claim). -/
structure PeerState where
  id : PeerId
  outbound : List (PeerId × PeerId)
  inbound : List (PeerId × PeerId)
  mempool : List (Nat × Tx)
  received_txs : List (PeerId × List Nat)
  reconciliation_set : RecSet
  seed : Nat
  bytes_sent : Nat
  bytes_received : Nat
  use_reconciliation : Bool
deriving DecidableEq, Repr

/-- RECONCILIATION_CAPACITY (src/peer.rs line 19). -/
def RECONCILIATION_CAPACITY : Nat := 128

namespace Peer

/-- Peer::new (src/peer.rs lines 87-106): empty maps, fresh reconciliation
set of capacity 128, seed initialised from the id's u64 encoding. -/
def new (id : PeerId) (use_reconciliation : Bool) : PeerState :=
  { id, outbound := [], inbound := [], mempool := [], received_txs := [],
    reconciliation_set := RecSet.new RECONCILIATION_CAPACITY,
    seed := peer_id_into_u64 id,
    bytes_sent := 0, bytes_received := 0, use_reconciliation }

/-- Peer::is_connected_to (src/peer.rs lines 108-110): outbound only. -/
def is_connected_to (st : PeerState) (id : PeerId) : Bool :=
  alContains id st.outbound

/-- Peer::is_public (src/peer.rs lines 116-118): nonempty inbound. -/
def is_public (st : PeerState) : Bool :=
  !st.inbound.isEmpty

/-- The `received_txs` update of the PeerTx handler (src/peer.rs lines
218-224): create the entry if absent, then push the txid. -/
def pushReceived (fromId : PeerId) (txid : Nat)
    (l : List (PeerId × List Nat)) : List (PeerId × List Nat) :=
  let l1 := if alContains fromId l then l else alInsert fromId [] l
  match alLookup fromId l1 with
  | some txs => alInsert fromId (txs ++ [txid]) l1
  | none => l1

/-- Handler<PeerTx> (src/peer.rs lines 199-269).  `sg` abstracts the external
XorShift shuffle: from the current 64-bit seed and the outbound entry list it
returns the shuffled list together with the value of `rng.gen()` drawn after
the shuffle (the new seed).  `sid` abstracts the SipHash short id. -/
def handlePeerTx (sg : Nat → List (PeerId × PeerId) → List (PeerId × PeerId) × Nat)
    (sid : Tx → Nat) (st : PeerState) (fromId : PeerId) (data : Tx) :
    PeerState × List (PeerId × Msg) :=
  let st0 := { st with
    bytes_received := st.bytes_received + (Msg.peerTx fromId data).size_bytes }
  let txid := sid data
  if alContains txid st0.mempool then (st0, [])
  else
    let rset := if !(RecSet.contains txid st0.reconciliation_set) then
        RecSet.insert (fun x => x) st0.reconciliation_set txid
      else st0.reconciliation_set
    let st1 := { st0 with
      reconciliation_set := rset,
      mempool := alInsert txid data st0.mempool,
      received_txs := pushReceived fromId txid st0.received_txs }
    if st1.use_reconciliation then
      if is_public st1 then
        let pr := sg st1.seed st1.outbound
        let sends := (pr.1.take 8).map (fun e => (e.2, Msg.peerTx st1.id data))
        ({ st1 with bytes_sent := st1.bytes_sent + sendsBytes sends,
                    seed := pr.2 }, sends)
      else (st1, [])
    else
      let sends := ((st1.outbound ++ st1.inbound).filter
          (fun e => e.1 != fromId)).map (fun e => (e.2, Msg.peerTx st1.id data))
      ({ st1 with bytes_sent := st1.bytes_sent + sendsBytes sends }, sends)

/-- Handler<Connect> (src/peer.rs lines 271-309). -/
def handleConnect (st : PeerState) (fromAddr fromId : PeerId) :
    PeerState × List (PeerId × Msg) :=
  let st0 := { st with
    bytes_received := st.bytes_received + (Msg.connect fromAddr fromId).size_bytes }
  if fromId = st0.id then (st0, [])
  else if is_connected_to st0 fromId then (st0, [])
  else
    let st1 := { st0 with inbound := alInsert fromId fromAddr st0.inbound }
    let is_private : Bool := match fromId with
      | PeerId.Private _ => true
      | _ => false
    if !is_private && !(is_connected_to st1 fromId) then
      let st2 := { st1 with outbound := alInsert fromId fromAddr st1.outbound }
      let reply := Msg.connect st2.id st2.id
      ({ st2 with bytes_sent := st2.bytes_sent + reply.size_bytes },
       [(fromAddr, reply)])
    else (st1, [])

/-- Handler<ReconcileRequest> (src/peer.rs lines 311-328): on decode success
reply with the missing ids, on failure do nothing further. -/
def handleReconcileRequest (st : PeerState) (fromAddr fromId : PeerId)
    (sketch : Sketch) : PeerState × List (PeerId × Msg) :=
  let st0 := { st with bytes_received :=
    st.bytes_received + (Msg.reconcileRequest fromAddr fromId sketch).size_bytes }
  match RecSet.reconcile_with st0.reconciliation_set sketch with
  | some missing =>
    let reply := Msg.reconcileResult st0.id st0.id missing
    ({ st0 with bytes_sent := st0.bytes_sent + reply.size_bytes },
     [(fromAddr, reply)])
  | none => (st0, [])

/-- Handler<ReconcileResult> (src/peer.rs lines 330-347): one TxRequest per
reported id. -/
def handleReconcileResult (st : PeerState) (fromAddr fromId : PeerId)
    (missing : List Nat) : PeerState × List (PeerId × Msg) :=
  let st0 := { st with bytes_received :=
    st.bytes_received + (Msg.reconcileResult fromAddr fromId missing).size_bytes }
  let sends := missing.map (fun txid => (fromAddr, Msg.txRequest st0.id st0.id txid))
  ({ st0 with bytes_sent := st0.bytes_sent + sendsBytes sends }, sends)

/-- Handler<TxRequest> (src/peer.rs lines 349-365). -/
def handleTxRequest (st : PeerState) (fromAddr fromId : PeerId) (txid : Nat) :
    PeerState × List (PeerId × Msg) :=
  let st0 := { st with bytes_received :=
    st.bytes_received + (Msg.txRequest fromAddr fromId txid).size_bytes }
  match alLookup txid st0.mempool with
  | some tx =>
    let m := Msg.peerTx st0.id tx
    ({ st0 with bytes_sent := st0.bytes_sent + m.size_bytes }, [(fromAddr, m)])
  | none => (st0, [])

/-- Dispatch of an incoming message to the matching handler. -/
def handleMsg (sg : Nat → List (PeerId × PeerId) → List (PeerId × PeerId) × Nat)
    (sid : Tx → Nat) (st : PeerState) : Msg → PeerState × List (PeerId × Msg)
  | Msg.peerTx fromId data => handlePeerTx sg sid st fromId data
  | Msg.connect fromAddr fromId => handleConnect st fromAddr fromId
  | Msg.reconcileRequest fromAddr fromId sketch =>
      handleReconcileRequest st fromAddr fromId sketch
  | Msg.reconcileResult fromAddr fromId missing =>
      handleReconcileResult st fromAddr fromId missing
  | Msg.txRequest fromAddr fromId txid => handleTxRequest st fromAddr fromId txid

end Peer

/-- Global state of the actor system: per-peer states keyed by id, plus the
multiset (here: list) of in-flight (target address, message) pairs. -/
structure SysState where
  peers : List (PeerId × PeerState)
  inflight : List (PeerId × Msg)
deriving DecidableEq, Repr

/-- Total bytes_sent over all peers. -/
def sentTotal (s : SysState) : Nat :=
  (s.peers.map (fun e => e.2.bytes_sent)).sum

/-- Total bytes_received over all peers. -/
def recvTotal (s : SysState) : Nat :=
  (s.peers.map (fun e => e.2.bytes_received)).sum

/-- Total size_bytes of the in-flight messages. -/
def inflightBytes (s : SysState) : Nat :=
  sendsBytes s.inflight

/-- Deliver the i-th in-flight message to its target peer: the target runs the
matching handler, its state is updated and the handler's outgoing messages
join the in-flight pool. -/
def deliverAt (sg : Nat → List (PeerId × PeerId) → List (PeerId × PeerId) × Nat)
    (sid : Tx → Nat) (s : SysState) (i : Nat) : Option SysState :=
  match s.inflight.get? i with
  | none => none
  | some tm =>
    match alLookup tm.1 s.peers with
    | none => none
    | some pst =>
      let r := Peer.handleMsg sg sid pst tm.2
      some { peers := alInsert tm.1 r.1 s.peers,
             inflight := s.inflight.eraseIdx i ++ r.2 }

/-- The t = 1 s timer of `Actor::started` (src/peer.rs lines 126-147): a
private peer fabricates one transaction from its PRNG (abstracted as `tf`),
sends it to the first outbound neighbour if any, and advances its seed
(`gf` abstracts the `rng.gen()` drawn after filling the payload). -/
def fireSeedTx (tf : Nat → Tx) (gf : Nat → Nat) (s : SysState) (p : PeerId) :
    Option SysState :=
  match alLookup p s.peers with
  | none => none
  | some st =>
    if Peer.is_public st then some s
    else
      let tx := tf st.seed
      match st.outbound with
      | [] =>
        some { s with peers := alInsert p { st with seed := gf st.seed } s.peers }
      | e :: _ =>
        let m := Msg.peerTx st.id tx
        some { peers := alInsert p
                 { st with bytes_sent := st.bytes_sent + m.size_bytes,
                           seed := gf st.seed } s.peers,
               inflight := s.inflight ++ [(e.2, m)] }

/-- The t = RECONCIL_TIMEOUT_SEC timer of `Actor::started` (src/peer.rs lines
177-191): if reconciliation is on, send a ReconcileRequest with the current
sketch to every outbound neighbour. -/
def fireReconcileRound (s : SysState) (p : PeerId) : Option SysState :=
  match alLookup p s.peers with
  | none => none
  | some st =>
    if st.use_reconciliation then
      let sends := st.outbound.map (fun e =>
        (e.2, Msg.reconcileRequest st.id st.id
                (RecSet.sketchBytes st.reconciliation_set)))
      some { peers := alInsert p
               { st with bytes_sent := st.bytes_sent + sendsBytes sends } s.peers,
             inflight := s.inflight ++ sends }
    else some s

/-- One step of the system: delivering an in-flight message, or firing one of
the message-producing start timers of some peer.  (The t = 5 s traffic-report
timer emits no protocol message and touches no counter, so it is omitted.) -/
inductive SysStep (sg : Nat → List (PeerId × PeerId) → List (PeerId × PeerId) × Nat)
    (sid : Tx → Nat) (tf : Nat → Tx) (gf : Nat → Nat) :
    SysState → SysState → Prop where
  | deliver {s t : SysState} (i : Nat) (h : deliverAt sg sid s i = some t) :
      SysStep sg sid tf gf s t
  | seedTx {s t : SysState} (p : PeerId) (h : fireSeedTx tf gf s p = some t) :
      SysStep sg sid tf gf s t
  | reconcileRound {s t : SysState} (p : PeerId)
      (h : fireReconcileRound s p = some t) : SysStep sg sid tf gf s t

/-- Reflexive-transitive closure of `SysStep`. -/
inductive Reach (sg : Nat → List (PeerId × PeerId) → List (PeerId × PeerId) × Nat)
    (sid : Tx → Nat) (tf : Nat → Tx) (gf : Nat → Nat) :
    SysState → SysState → Prop where
  | refl (s : SysState) : Reach sg sid tf gf s s
  | tail {s t u : SysState} : Reach sg sid tf gf s t → SysStep sg sid tf gf t u →
      Reach sg sid tf gf s u

/-- The wiring pass of main (src/main.rs lines 49-105): spawn the public and
private peers (each private peer's outbound pre-populated with every public
peer), then inject one Connect per public-public ordered pair and one Connect
per (private, public) pair.  The injected messages are sent by `main`, not by
any peer, so nobody's `bytes_sent` accounts for them. -/
def harnessInit (num_public num_private : Nat) (use_reconciliation : Bool) :
    SysState :=
  let pubs := (List.range num_public).map (fun i => PeerId.Public i)
  let privs := (List.range num_private).map (fun i => PeerId.Private i)
  let pubPeers := pubs.map (fun p => (p, Peer.new p use_reconciliation))
  let privPeers := privs.map (fun p =>
    (p, { Peer.new p use_reconciliation with
            outbound := pubs.map (fun q => (q, q)) }))
  let meshMsgs := pubs.flatMap (fun thisId =>
    (pubs.filter (fun o => o != thisId)).map (fun otherId =>
      (otherId, Msg.connect thisId thisId)))
  let privMsgs := privs.flatMap (fun p =>
    pubs.map (fun q => (q, Msg.connect p p)))
  { peers := pubPeers ++ privPeers, inflight := meshMsgs ++ privMsgs }

/-- TrafficData (src/traffic_counter.rs lines 8-12). -/
structure TrafficData where
  bytes_received : Nat
  bytes_sent : Nat
deriving DecidableEq, Repr

/-- The deadline of the TrafficCounter start timer (src/traffic_counter.rs
line 30: `ctx.run_later(Duration::from_secs(31), ...)`). -/
def traffic_deadline_sec : Nat := 31

/-- The grand-total fold the TrafficCounter performs at its deadline
(src/traffic_counter.rs lines 31-34). -/
def traffic_grand_total (l : List TrafficData) : Nat :=
  l.foldl (fun v next => v + (next.bytes_sent + next.bytes_received)) 0

/-- Second definition, written from the spec's words (section 4.4): the
deadline "reference formula: ceil(0.57 * num_private + 1.0 * num_public)". -/
def spec_traffic_deadline (num_private num_public : Nat) : Nat :=
  Nat.ceil ((57 / 100 : ℚ) * num_private + 1 * num_public)

theorem traffic_grand_total_go (l : List TrafficData) : ∀ a : Nat,
    l.foldl (fun v next => v + (next.bytes_sent + next.bytes_received)) a =
      a + (l.map (fun d => d.bytes_sent + d.bytes_received)).sum := by
  induction l with
  | nil => intro a; simp
  | cons d ds ih => intro a; simp [List.foldl_cons, ih]; omega

/-- C3: the PeerId u64 encoding pair is not mutually inverse in the code: the
spec's decode would return `Private(v >> 16 - 1)` for `v ≥ 2^16`, but
src/peer.rs returns `Private(v as u32)`, so decoding the encoding of
`Private(0)` (which is 65536) yields `Private(65536)`, not `Private(0)`. -/
theorem c3_private_decode_not_inverse :
    peer_id_into_u64 (PeerId.Private 0) = 65536 ∧
    peer_id_from_u64 (peer_id_into_u64 (PeerId.Private 0)) = PeerId.Private 65536 ∧
    spec_peer_id_from_u64 (peer_id_into_u64 (PeerId.Private 0)) = PeerId.Private 0 ∧
    PeerId.Private 65536 ≠ PeerId.Private 0 := by
  refine ⟨by decide, by decide, by decide, by decide⟩

/-- C4: the construction seed of `with_seed` is not threaded to
`reconcile_with`: `with_seed(16, 42)` installs `Some(42)` in the minisketch it
builds but stores `None` in the `seed` field, and `reconcile_with` passes that
stored `None` - not `Some(42)` - to the stateless `reconcile`. -/
theorem c4_with_seed_not_threaded :
    (RecSet.with_seed 16 42).seed = none ∧
    (RecSet.with_seed 16 42).sketch.mseed = some 42 ∧
    (∀ b : Sketch, RecSet.reconcile_with (RecSet.with_seed 16 42) b =
        RecSet.reconcile (RecSet.sketchBytes (RecSet.with_seed 16 42)) b 16 none) ∧
    (none : Option Nat) ≠ some 42 := by
  refine ⟨rfl, rfl, fun b => rfl, by decide⟩

/-- C6: for every message, size_bytes equals the spec's wire-format table with
sizeof(PeerId) = 8 and sizeof(Tx) = 1024: PeerTx = B + 8, Connect = 8,
ReconcileRequest = 8 + len(sketch), ReconcileResult = 8 + 8 * len(missing),
TxRequest = 16. -/
theorem c6_wire_sizes :
    (∀ m : Msg, m.size_bytes = spec_wire_size m) ∧
    (∀ f d, (Msg.peerTx f d).size_bytes = 1024 + 8) ∧
    (∀ fa fi, (Msg.connect fa fi).size_bytes = 8) ∧
    (∀ fa fi sk, (Msg.reconcileRequest fa fi sk).size_bytes = 8 + sk.byteLen) ∧
    (∀ fa fi ms, (Msg.reconcileResult fa fi ms).size_bytes = 8 + 8 * ms.length) ∧
    (∀ fa fi t, (Msg.txRequest fa fi t).size_bytes = 16) := by
  refine ⟨fun m => ?_, fun _ _ => rfl, fun _ _ => rfl, fun _ _ _ => rfl,
    fun _ _ ms => ?_, fun _ _ _ => rfl⟩
  · cases m <;>
      simp [Msg.size_bytes, spec_wire_size, sizeof_peer_id, sizeof_tx, sizeof_u64,
        Nat.mul_comm]
  · simp [Msg.size_bytes, sizeof_peer_id, sizeof_u64, Nat.mul_comm]

/-- C9 counterexample: the claim says the termination deadline equals
ceil(0.57 * num_private + 1.0 * num_public) (floored at a small constant), but
the TrafficCounter in src/traffic_counter.rs fires at the fixed 31 seconds:
with 0 private and 100 public peers the formula gives 100 (and any
"small constant" floor keeps it at least 100), while the code's deadline
is 31. -/
theorem c9_deadline_counterexample :
    traffic_deadline_sec = 31 ∧ spec_traffic_deadline 0 100 = 100 ∧
    traffic_deadline_sec < spec_traffic_deadline 0 100 := by
  have h : spec_traffic_deadline 0 100 = 100 := by
    norm_num [spec_traffic_deadline]
  exact ⟨rfl, h, by rw [h]; norm_num [traffic_deadline_sec]⟩

/-- C9 amended: the deadline at which the TrafficCounter folds all entries
into the grand total, prints it and terminates is the fixed constant 31
seconds, independent of num_private and num_public (the helper
estimate_traffic_timeout_sec truncates 0.57 * num_private + 1.0 * num_public
instead of taking its ceiling, and its value is not consumed by the
TrafficCounter of src/traffic_counter.rs); the folded grand total is the sum
of bytes_sent + bytes_received over all stored entries. -/
theorem c9_amended_deadline :
    traffic_deadline_sec = 31 ∧
    ∀ l : List TrafficData,
      traffic_grand_total l = (l.map (fun d => d.bytes_sent + d.bytes_received)).sum := by
  refine ⟨rfl, fun l => ?_⟩
  simpa [traffic_grand_total] using traffic_grand_total_go l 0

theorem not_mem_keys_of_not_contains {K V : Type} [DecidableEq K] {k : K} :
    ∀ {l : List (K × V)}, alContains k l = false → k ∉ l.map Prod.fst
  | [], _ => by simp
  | e :: es, h => by
    by_cases he : e.1 = k
    · exfalso; simp [alContains, alLookup, he] at h
    · have h2 : alContains k es = false := by
        simpa [alContains, alLookup, he] using h
      simpa [Ne.symm he] using not_mem_keys_of_not_contains h2

theorem skAdd_foldl_sorted_perm : ∀ (l acc : List Nat),
    acc.Sorted (· ≤ ·) → l.Nodup → (∀ x ∈ l, x ∉ acc) →
    (l.foldl (fun s k => skAdd k s) acc).Sorted (· ≤ ·) ∧
      (l.foldl (fun s k => skAdd k s) acc).Perm (l ++ acc)
  | [], acc, hs, _, _ => ⟨hs, by simp⟩
  | k :: l, acc, hs, hnd, hdisj => by
    have hk : k ∉ acc := hdisj k (by simp)
    have hstep : skAdd k acc = acc.orderedInsert (· ≤ ·) k := by
      simp [skAdd, hk]
    have hs2 : (skAdd k acc).Sorted (· ≤ ·) := by
      rw [hstep]; exact List.Sorted.orderedInsert k acc hs
    have hp2 : (skAdd k acc).Perm (k :: acc) := by
      rw [hstep]; exact List.perm_orderedInsert _ k acc
    have hnd2 : l.Nodup := (List.nodup_cons.mp hnd).2
    have hdisj2 : ∀ x ∈ l, x ∉ skAdd k acc := by
      intro x hx hmem
      have hxk : x ≠ k := fun hEq => (List.nodup_cons.mp hnd).1 (hEq ▸ hx)
      have hcons : x ∈ k :: acc := hp2.mem_iff.mp hmem
      rcases List.mem_cons.mp hcons with h1 | h2
      · exact hxk h1
      · exact hdisj x (by simp [hx]) h2
    obtain ⟨hsr, hpr⟩ := skAdd_foldl_sorted_perm l (skAdd k acc) hs2 hnd2 hdisj2
    refine ⟨by simpa using hsr, ?_⟩
    have h3 : (l ++ skAdd k acc).Perm (l ++ k :: acc) := List.Perm.append_left l hp2
    have h4 : (l ++ k :: acc).Perm (k :: (l ++ acc)) := List.perm_middle
    simpa using hpr.trans (h3.trans h4)

/-- Reachability invariant of RecSet under insertion: the map keys are
distinct and the sketch content is exactly the (sorted) key set. -/
def RecInv (r : RecSet) : Prop :=
  (r.map.map Prod.fst).Nodup ∧ r.sketch.elems.Sorted (· ≤ ·) ∧
    r.sketch.elems.Perm (r.map.map Prod.fst)

theorem recInv_new (c : Nat) : RecInv (RecSet.new c) := by
  refine ⟨by simp [RecSet.new], by simp [RecSet.new, RecSet.create_minisketch], ?_⟩
  simp [RecSet.new, RecSet.create_minisketch]

theorem recInv_insert (sid : Tx → Nat) (r : RecSet) (v : Tx) (h : RecInv r) :
    RecInv (RecSet.insert sid r v) := by
  obtain ⟨hnd, hs, hp⟩ := h
  unfold RecSet.insert
  by_cases hc : alContains (sid v) r.map
  · simpa [hc] using ⟨hnd, hs, hp⟩
  · have hcf : alContains (sid v) r.map = false := by
      simpa using hc
    have hknotin : sid v ∉ r.map.map Prod.fst := not_mem_keys_of_not_contains hcf
    have hknotsk : sid v ∉ r.sketch.elems := fun hm => hknotin (hp.mem_iff.mp hm)
    have hmap : alInsert (sid v) v r.map = r.map ++ [(sid v, v)] :=
      alInsert_of_not_contains hcf
    rw [if_neg hc]
    refine ⟨?_, ?_, ?_⟩
    · rw [hmap]
      simp only [List.map_append, List.map_cons, List.map_nil]
      simp [List.nodup_append, hnd, hknotin]
    · show (skAdd (sid v) r.sketch.elems).Sorted (· ≤ ·)
      rw [skAdd, if_neg hknotsk]
      exact List.Sorted.orderedInsert (sid v) r.sketch.elems hs
    · show (skAdd (sid v) r.sketch.elems).Perm ((alInsert (sid v) v r.map).map Prod.fst)
      rw [skAdd, if_neg hknotsk, hmap]
      have h1 : (r.sketch.elems.orderedInsert (· ≤ ·) (sid v)).Perm
          (sid v :: r.sketch.elems) := List.perm_orderedInsert _ _ _
      have h2 : (sid v :: r.sketch.elems).Perm (sid v :: r.map.map Prod.fst) :=
        hp.cons _
      have h3 : ((r.map ++ [(sid v, v)]).map Prod.fst) =
          r.map.map Prod.fst ++ [sid v] := by simp
      rw [h3]
      have h4 : (sid v :: r.map.map Prod.fst).Perm
          (r.map.map Prod.fst ++ [sid v]) := by
        have h5 : (r.map.map Prod.fst ++ sid v :: []).Perm
            (sid v :: (r.map.map Prod.fst ++ [])) := List.perm_middle
        simpa using h5.symm
      exact (h1.trans h2).trans h4

theorem recSet_insert_capacity (sid : Tx → Nat) (r : RecSet) (v : Tx) :
    (RecSet.insert sid r v).capacity = r.capacity := by
  unfold RecSet.insert
  by_cases hc : alContains (sid v) r.map <;> simp [hc]

theorem recSet_insert_seed (sid : Tx → Nat) (r : RecSet) (v : Tx) :
    (RecSet.insert sid r v).seed = r.seed := by
  unfold RecSet.insert
  by_cases hc : alContains (sid v) r.map <;> simp [hc]

theorem recInv_foldl (sid : Tx → Nat) : ∀ (vs : List Tx) (r : RecSet),
    RecInv r → RecInv (vs.foldl (RecSet.insert sid) r)
  | [], r, h => h
  | v :: vs, r, h => recInv_foldl sid vs _ (recInv_insert sid r v h)

theorem recSet_foldl_capacity (sid : Tx → Nat) : ∀ (vs : List Tx) (r : RecSet),
    (vs.foldl (RecSet.insert sid) r).capacity = r.capacity
  | [], _ => rfl
  | v :: vs, r => by
    rw [List.foldl_cons, recSet_foldl_capacity sid vs _, recSet_insert_capacity]

/-- C2: for every sequence of inserts into a fresh RecSet the resulting sketch
equals the sketch obtained by adding exactly the keys of the resulting map to
a fresh (zero) sketch of the same capacity, and inserting an element whose
short id is already a key changes nothing (insert never double-adds an id). -/
theorem c2_sketch_map_consistency (sid : Tx → Nat) (c : Nat) (vs : List Tx) :
    ((vs.foldl (RecSet.insert sid) (RecSet.new c)).capacity = c) ∧
    ((vs.foldl (RecSet.insert sid) (RecSet.new c)).sketch.elems =
      ((vs.foldl (RecSet.insert sid) (RecSet.new c)).map.map Prod.fst).foldl
        (fun s k => skAdd k s) (RecSet.new c).sketch.elems) ∧
    (∀ (r : RecSet) (v : Tx), RecSet.contains (sid v) r = true →
       RecSet.insert sid r v = r) := by
  refine ⟨recSet_foldl_capacity sid vs _, ?_, ?_⟩
  · obtain ⟨hnd, hs, hp⟩ := recInv_foldl sid vs (RecSet.new c) (recInv_new c)
    have hfresh : (RecSet.new c).sketch.elems = [] := rfl
    rw [hfresh]
    obtain ⟨hsr, hpr⟩ := skAdd_foldl_sorted_perm
      ((vs.foldl (RecSet.insert sid) (RecSet.new c)).map.map Prod.fst) []
      (by simp) hnd (by simp)
    refine List.eq_of_perm_of_sorted ?_ hs hsr
    exact hp.trans (by simpa using hpr.symm)
  · intro r v hcv
    unfold RecSet.insert
    simp only [RecSet.contains] at hcv
    simp [hcv]

/-- Witness for C2 at a concrete insertion sequence with a repeated id. -/
theorem c2_witness :
    ((([1, 2, 1] : List Tx).foldl (RecSet.insert (fun x => x)) (RecSet.new 8)).sketch.elems =
      ((([1, 2, 1] : List Tx).foldl (RecSet.insert (fun x => x)) (RecSet.new 8)).map.map
        Prod.fst).foldl (fun s k => skAdd k s) (RecSet.new 8).sketch.elems) ∧
    RecSet.insert (fun x => x) (RecSet.insert (fun x => x) (RecSet.new 8) 1) 1 =
      RecSet.insert (fun x => x) (RecSet.new 8) 1 :=
  ⟨(c2_sketch_map_consistency (fun x => x) 8 [1, 2, 1]).2.1,
   (c2_sketch_map_consistency (fun x => x) 8 []).2.2 _ 1 (by decide)⟩

theorem mem_keys_of_contains {K V : Type} [DecidableEq K] {k : K} :
    ∀ {l : List (K × V)}, alContains k l = true → k ∈ l.map Prod.fst
  | [], h => by simp [alContains, alLookup] at h
  | e :: es, h => by
    by_cases he : e.1 = k
    · simp [he]
    · have h2 : alContains k es = true := by
        simpa [alContains, alLookup, he] using h
      simpa [he] using Or.inr (mem_keys_of_contains h2)

theorem handlePeerTx_mempool
    (sg : Nat → List (PeerId × PeerId) → List (PeerId × PeerId) × Nat)
    (sid : Tx → Nat) (st : PeerState) (fromId : PeerId) (data : Tx) :
    (Peer.handlePeerTx sg sid st fromId data).1.mempool =
      if alContains (sid data) st.mempool then st.mempool
      else alInsert (sid data) data st.mempool := by
  unfold Peer.handlePeerTx
  by_cases hc : alContains (sid data) st.mempool
  · simp [hc]
  · simp only [hc, Bool.false_eq_true, if_false]
    split_ifs <;> rfl

theorem handlePeerTx_mempool_keys
    (sg : Nat → List (PeerId × PeerId) → List (PeerId × PeerId) × Nat)
    (sid : Tx → Nat) (st : PeerState) (fromId : PeerId) (data : Tx) :
    ((Peer.handlePeerTx sg sid st fromId data).1.mempool.map Prod.fst).toFinset =
      insert (sid data) (st.mempool.map Prod.fst).toFinset := by
  rw [handlePeerTx_mempool]
  by_cases hc : alContains (sid data) st.mempool
  · rw [if_pos hc]
    have hmem : sid data ∈ st.mempool.map Prod.fst := mem_keys_of_contains hc
    rw [Finset.insert_eq_self.mpr (by simpa using hmem)]
  · rw [if_neg hc, alInsert_of_not_contains (by simpa using hc)]
    simp [List.toFinset_append, Finset.union_comm]
    rw [Finset.insert_eq]

theorem handlePeerTx_mempool_nodup
    (sg : Nat → List (PeerId × PeerId) → List (PeerId × PeerId) × Nat)
    (sid : Tx → Nat) (st : PeerState) (fromId : PeerId) (data : Tx)
    (h : (st.mempool.map Prod.fst).Nodup) :
    ((Peer.handlePeerTx sg sid st fromId data).1.mempool.map Prod.fst).Nodup := by
  rw [handlePeerTx_mempool]
  by_cases hc : alContains (sid data) st.mempool
  · rwa [if_pos hc]
  · rw [if_neg hc, alInsert_of_not_contains (by simpa using hc)]
    have hni : sid data ∉ st.mempool.map Prod.fst :=
      not_mem_keys_of_not_contains (by simpa using hc)
    simp [List.nodup_append, h, hni]

theorem deliverFold_keys
    (sg : Nat → List (PeerId × PeerId) → List (PeerId × PeerId) × Nat)
    (sid : Tx → Nat) : ∀ (msgs : List (PeerId × Tx)) (st : PeerState),
    (st.mempool.map Prod.fst).Nodup →
    (((msgs.foldl (fun s pm => (Peer.handlePeerTx sg sid s pm.1 pm.2).1)
        st).mempool.map Prod.fst).Nodup ∧
      ((msgs.foldl (fun s pm => (Peer.handlePeerTx sg sid s pm.1 pm.2).1)
        st).mempool.map Prod.fst).toFinset =
        (st.mempool.map Prod.fst).toFinset ∪
          (msgs.map (fun pm => sid pm.2)).toFinset)
  | [], st, h => ⟨h, by simp⟩
  | pm :: msgs, st, h => by
    have hstep := handlePeerTx_mempool_keys sg sid st pm.1 pm.2
    have hnd := handlePeerTx_mempool_nodup sg sid st pm.1 pm.2 h
    obtain ⟨ih1, ih2⟩ := deliverFold_keys sg sid msgs
      (Peer.handlePeerTx sg sid st pm.1 pm.2).1 hnd
    refine ⟨by simpa using ih1, ?_⟩
    simp only [List.foldl_cons] at ih2 ⊢
    rw [ih2, hstep]
    simp [Finset.insert_union, Finset.union_insert]

/-- C8: starting from a fresh peer, after any sequence of PeerTx deliveries
the mempool size equals the number of distinct short ids among the delivered
payloads; a PeerTx whose short id is already present leaves the mempool
unchanged, and no delivery ever removes a mempool key. -/
theorem c8_mempool_dedup
    (sg : Nat → List (PeerId × PeerId) → List (PeerId × PeerId) × Nat)
    (sid : Tx → Nat) (id0 : PeerId) (urec : Bool) (msgs : List (PeerId × Tx)) :
    ((msgs.foldl (fun s pm => (Peer.handlePeerTx sg sid s pm.1 pm.2).1)
        (Peer.new id0 urec)).mempool).length =
      (msgs.map (fun pm => sid pm.2)).dedup.length ∧
    (∀ (st : PeerState) (fromId : PeerId) (data : Tx),
       alContains (sid data) st.mempool = true →
       (Peer.handlePeerTx sg sid st fromId data).1.mempool = st.mempool) ∧
    (∀ (st : PeerState) (fromId : PeerId) (data : Tx) (k : Nat),
       k ∈ st.mempool.map Prod.fst →
       k ∈ (Peer.handlePeerTx sg sid st fromId data).1.mempool.map Prod.fst) := by
  refine ⟨?_, ?_, ?_⟩
  · obtain ⟨hnd, hkeys⟩ := deliverFold_keys sg sid msgs (Peer.new id0 urec)
      (by simp [Peer.new])
    have hlen : ((msgs.foldl (fun s pm => (Peer.handlePeerTx sg sid s pm.1 pm.2).1)
        (Peer.new id0 urec)).mempool).length =
        ((msgs.foldl (fun s pm => (Peer.handlePeerTx sg sid s pm.1 pm.2).1)
          (Peer.new id0 urec)).mempool.map Prod.fst).length := by
      simp
    rw [hlen, ← List.toFinset_card_of_nodup hnd, hkeys]
    have hempty : ((Peer.new id0 urec).mempool.map Prod.fst).toFinset = ∅ := by
      simp [Peer.new]
    rw [hempty, Finset.empty_union, List.card_toFinset]
  · intro st fromId data hcontains
    rw [handlePeerTx_mempool, if_pos hcontains]
  · intro st fromId data k hk
    rw [handlePeerTx_mempool]
    by_cases hc : alContains (sid data) st.mempool
    · rwa [if_pos hc]
    · rw [if_neg hc, alInsert_of_not_contains (by simpa using hc)]
      simp only [List.map_append, List.mem_append]
      exact Or.inl hk

/-- A trivially permuting stand-in for the external shuffle, used only to
instantiate theorems at concrete inputs. -/
def wShuffle : Nat → List (PeerId × PeerId) → List (PeerId × PeerId) × Nat :=
  fun s l => (l, s + 1)

/-- Identity short-id function for concrete instantiations. -/
def wSid : Tx → Nat := fun x => x

/-- Concrete peer state with short id 5 already in the mempool. -/
def c8wSt : PeerState :=
  (Peer.handlePeerTx wShuffle wSid (Peer.new (PeerId.Public 0) true)
    (PeerId.Public 1) 5).1

/-- Witness for C8: three deliveries with one duplicate short id yield a
mempool of size 2, and a duplicate delivery leaves the mempool unchanged. -/
theorem c8_witness :
    ((([(PeerId.Public 1, 5), (PeerId.Public 2, 5), (PeerId.Public 1, 7)] :
        List (PeerId × Tx)).foldl
        (fun s pm => (Peer.handlePeerTx wShuffle wSid s pm.1 pm.2).1)
        (Peer.new (PeerId.Private 0) false)).mempool).length =
      (([(PeerId.Public 1, 5), (PeerId.Public 2, 5), (PeerId.Public 1, 7)] :
        List (PeerId × Tx)).map (fun pm => wSid pm.2)).dedup.length ∧
    (Peer.handlePeerTx wShuffle wSid c8wSt (PeerId.Public 2) 5).1.mempool =
      c8wSt.mempool :=
  ⟨(c8_mempool_dedup wShuffle wSid (PeerId.Private 0) false
      [(PeerId.Public 1, 5), (PeerId.Public 2, 5), (PeerId.Public 1, 7)]).1,
   (c8_mempool_dedup wShuffle wSid (PeerId.Private 0) false []).2.1
      c8wSt (PeerId.Public 2) 5 (by decide)⟩

/-- C5 amended: with reconciliation off and a fresh short id, the peer
re-emits the transaction once per connection-map entry - to every outbound
entry and then every inbound entry whose PeerId differs from the sender - so
a neighbour present in both maps receives the transaction twice, and no
message is emitted for the sender's own entries. -/
theorem c5_flood_per_entry
    (sg : Nat → List (PeerId × PeerId) → List (PeerId × PeerId) × Nat)
    (sid : Tx → Nat) (st : PeerState) (fromId : PeerId) (data : Tx)
    (hrec : st.use_reconciliation = false)
    (hfresh : alContains (sid data) st.mempool = false) :
    (Peer.handlePeerTx sg sid st fromId data).2 =
      ((st.outbound ++ st.inbound).filter (fun e => e.1 != fromId)).map
        (fun e => (e.2, Msg.peerTx st.id data)) ∧
    (∀ n a : PeerId, (n, a) ∈ st.outbound → (n, a) ∈ st.inbound → n ≠ fromId →
      2 ≤ (Peer.handlePeerTx sg sid st fromId data).2.countP
        (fun e => e.1 == a)) ∧
    (∀ m ∈ (Peer.handlePeerTx sg sid st fromId data).2,
      m.2 = Msg.peerTx st.id data) := by
  have hsends : (Peer.handlePeerTx sg sid st fromId data).2 =
      ((st.outbound ++ st.inbound).filter (fun e => e.1 != fromId)).map
        (fun e => (e.2, Msg.peerTx st.id data)) := by
    unfold Peer.handlePeerTx
    simp only [hfresh, Bool.false_eq_true, if_false, hrec]
  refine ⟨hsends, ?_, ?_⟩
  · intro n a hout hinb hne
    rw [hsends, List.countP_map, List.countP_filter, List.countP_append]
    have hout1 : 0 < st.outbound.countP
        (fun e => (e.2 == a) && (e.1 != fromId)) := by
      rw [List.countP_pos_iff]
      exact ⟨(n, a), hout, by simp [hne]⟩
    have hinb1 : 0 < st.inbound.countP
        (fun e => (e.2 == a) && (e.1 != fromId)) := by
      rw [List.countP_pos_iff]
      exact ⟨(n, a), hinb, by simp [hne]⟩
    exact Nat.add_le_add hout1 hinb1
  · intro m hm
    rw [hsends] at hm
    simp only [List.mem_map] at hm
    obtain ⟨e, _, he⟩ := hm
    rw [← he]

/-- Concrete post-handshake peer state in flooding mode: Public 1 sits in both
the outbound and the inbound map (as happens between public peers after the
mutual Connect exchange), and Private 0 is an inbound neighbour. -/
def c5St : PeerState :=
  { Peer.new (PeerId.Public 0) false with
      outbound := [(PeerId.Public 1, PeerId.Public 1)],
      inbound := [(PeerId.Public 1, PeerId.Public 1),
                  (PeerId.Private 0, PeerId.Private 0)] }

/-- C5 counterexample: with reconciliation off, a neighbour present in both
the outbound and the inbound map receives the re-emitted transaction twice,
not "only once" as the claim states. -/
theorem c5_double_send_counterexample :
    (Peer.handlePeerTx wShuffle wSid c5St (PeerId.Private 0) 7).2.countP
      (fun e => e.1 == PeerId.Public 1) = 2 ∧ (2 : Nat) ≠ 1 := by
  refine ⟨by decide, by decide⟩

/-- Witness for C5 amended at the concrete state c5St. -/
theorem c5_witness :
    (Peer.handlePeerTx wShuffle wSid c5St (PeerId.Private 0) 7).2 =
      ((c5St.outbound ++ c5St.inbound).filter (fun e => e.1 != PeerId.Private 0)).map
        (fun e => (e.2, Msg.peerTx c5St.id 7)) ∧
    2 ≤ (Peer.handlePeerTx wShuffle wSid c5St (PeerId.Private 0) 7).2.countP
      (fun e => e.1 == PeerId.Public 1) :=
  ⟨(c5_flood_per_entry wShuffle wSid c5St (PeerId.Private 0) 7
      (by decide) (by decide)).1,
   (c5_flood_per_entry wShuffle wSid c5St (PeerId.Private 0) 7
      (by decide) (by decide)).2.1 (PeerId.Public 1) (PeerId.Public 1)
      (by decide) (by decide) (by decide)⟩

theorem handlePeerTx_recon_private
    (sg : Nat → List (PeerId × PeerId) → List (PeerId × PeerId) × Nat)
    (sid : Tx → Nat) (st : PeerState) (fromId : PeerId) (data : Tx)
    (hrec : st.use_reconciliation = true)
    (hfresh : alContains (sid data) st.mempool = false)
    (hin : st.inbound = []) :
    (Peer.handlePeerTx sg sid st fromId data).2 = [] := by
  unfold Peer.handlePeerTx
  simp [hfresh, hrec, Peer.is_public, hin]

theorem handlePeerTx_recon_public
    (sg : Nat → List (PeerId × PeerId) → List (PeerId × PeerId) × Nat)
    (sid : Tx → Nat) (st : PeerState) (fromId : PeerId) (data : Tx)
    (hrec : st.use_reconciliation = true)
    (hfresh : alContains (sid data) st.mempool = false)
    (hin : st.inbound ≠ []) :
    (Peer.handlePeerTx sg sid st fromId data).2 =
      ((sg st.seed st.outbound).1.take 8).map
        (fun e => (e.2, Msg.peerTx st.id data)) ∧
    (Peer.handlePeerTx sg sid st fromId data).1.seed =
      (sg st.seed st.outbound).2 := by
  unfold Peer.handlePeerTx
  have hpub : st.inbound.isEmpty = false := by
    simpa [List.isEmpty_iff] using hin
  simp [hfresh, hrec, Peer.is_public, hpub]

/-- C1: in reconciliation mode, on a PeerTx with a fresh short id a public
peer re-emits the transaction (as PeerTx from itself) to the first up to 8
entries of its outbound list as shuffled by the seed-driven PRNG and then
advances its seed, while a private peer (empty inbound) emits nothing. -/
theorem c1_low_fanout_relay
    (sg : Nat → List (PeerId × PeerId) → List (PeerId × PeerId) × Nat)
    (sid : Tx → Nat) (st : PeerState) (fromId : PeerId) (data : Tx)
    (hrec : st.use_reconciliation = true)
    (hfresh : alContains (sid data) st.mempool = false)
    (hperm : ∀ s l, (sg s l).1.Perm l) :
    (st.inbound = [] → (Peer.handlePeerTx sg sid st fromId data).2 = []) ∧
    (st.inbound ≠ [] →
      (Peer.handlePeerTx sg sid st fromId data).2 =
        ((sg st.seed st.outbound).1.take 8).map
          (fun e => (e.2, Msg.peerTx st.id data)) ∧
      (Peer.handlePeerTx sg sid st fromId data).2.length ≤ 8 ∧
      (∀ m ∈ (Peer.handlePeerTx sg sid st fromId data).2,
        m.2 = Msg.peerTx st.id data ∧ ∃ n, (n, m.1) ∈ st.outbound) ∧
      (Peer.handlePeerTx sg sid st fromId data).1.seed =
        (sg st.seed st.outbound).2) := by
  refine ⟨fun hin => handlePeerTx_recon_private sg sid st fromId data hrec hfresh hin,
    fun hin => ?_⟩
  obtain ⟨hsends, hseed⟩ :=
    handlePeerTx_recon_public sg sid st fromId data hrec hfresh hin
  refine ⟨hsends, ?_, ?_, hseed⟩
  · rw [hsends, List.length_map, List.length_take]
    exact Nat.min_le_left _ _
  · intro m hm
    rw [hsends] at hm
    simp only [List.mem_map] at hm
    obtain ⟨e, he, hme⟩ := hm
    have hel : e ∈ (sg st.seed st.outbound).1 := List.mem_of_mem_take he
    have heo : e ∈ st.outbound := (hperm st.seed st.outbound).mem_iff.mp hel
    refine ⟨by rw [← hme], ⟨e.1, ?_⟩⟩
    rw [← hme]
    simpa using heo

/-- Concrete public peer state in reconciliation mode with ten outbound
neighbours. -/
def c1St : PeerState :=
  { Peer.new (PeerId.Public 0) true with
      outbound := (List.range 10).map
        (fun i => (PeerId.Public (i + 1), PeerId.Public (i + 1))),
      inbound := [(PeerId.Private 0, PeerId.Private 0)] }

/-- Concrete private peer state in reconciliation mode. -/
def c1StPriv : PeerState :=
  { Peer.new (PeerId.Private 0) true with
      outbound := [(PeerId.Public 0, PeerId.Public 0)] }

/-- Witness for C1: the public peer relays to exactly 8 of its 10 outbound
neighbours and the private peer relays to none. -/
theorem c1_witness :
    (Peer.handlePeerTx wShuffle wSid c1St (PeerId.Private 0) 7).2.length ≤ 8 ∧
    (Peer.handlePeerTx wShuffle wSid c1StPriv (PeerId.Public 0) 7).2 = [] :=
  ⟨((c1_low_fanout_relay wShuffle wSid c1St (PeerId.Private 0) 7
      (by decide) (by decide) (fun s l => List.Perm.refl l)).2 (by decide)).2.1,
   (c1_low_fanout_relay wShuffle wSid c1StPriv (PeerId.Public 0) 7
      (by decide) (by decide) (fun s l => List.Perm.refl l)).1 rfl⟩

theorem handleMsg_accounting
    (sg : Nat → List (PeerId × PeerId) → List (PeerId × PeerId) × Nat)
    (sid : Tx → Nat) (st : PeerState) : ∀ m : Msg,
    ((Peer.handleMsg sg sid st m).1).bytes_received =
      st.bytes_received + m.size_bytes ∧
    ((Peer.handleMsg sg sid st m).1).bytes_sent =
      st.bytes_sent + sendsBytes (Peer.handleMsg sg sid st m).2
  | Msg.peerTx f d => by
    simp only [Peer.handleMsg]
    unfold Peer.handlePeerTx
    dsimp only
    split_ifs <;> simp [sendsBytes]
  | Msg.connect fa fi => by
    simp only [Peer.handleMsg]
    unfold Peer.handleConnect
    dsimp only
    split_ifs <;> simp [sendsBytes]
  | Msg.reconcileRequest fa fi sk => by
    simp only [Peer.handleMsg]
    unfold Peer.handleReconcileRequest
    dsimp only
    split <;> simp [sendsBytes]
  | Msg.reconcileResult fa fi missing => by
    simp only [Peer.handleMsg]
    unfold Peer.handleReconcileResult
    dsimp only
    simp [sendsBytes]
  | Msg.txRequest fa fi txid => by
    simp only [Peer.handleMsg]
    unfold Peer.handleTxRequest
    dsimp only
    split <;> simp [sendsBytes]

/-- C10: every handler adds the incoming message's size_bytes to
bytes_received, and a message the handler then drops - a self-connect, a
duplicate connect, a TxRequest for an unknown txid, or a ReconcileRequest
whose sketch fails to decode - still increases bytes_received by size_bytes
while changing no other field and producing no reply. -/
theorem c10_dropped_still_counted :
    (∀ (sg : Nat → List (PeerId × PeerId) → List (PeerId × PeerId) × Nat)
       (sid : Tx → Nat) (st : PeerState) (m : Msg),
       ((Peer.handleMsg sg sid st m).1).bytes_received =
         st.bytes_received + m.size_bytes) ∧
    (∀ (st : PeerState) (fa : PeerId),
       Peer.handleConnect st fa st.id =
         ({ st with bytes_received :=
              st.bytes_received + (Msg.connect fa st.id).size_bytes }, [])) ∧
    (∀ (st : PeerState) (fa fid : PeerId),
       Peer.is_connected_to st fid = true →
       Peer.handleConnect st fa fid =
         ({ st with bytes_received :=
              st.bytes_received + (Msg.connect fa fid).size_bytes }, [])) ∧
    (∀ (st : PeerState) (fa fid : PeerId) (txid : Nat),
       alLookup txid st.mempool = none →
       Peer.handleTxRequest st fa fid txid =
         ({ st with bytes_received :=
              st.bytes_received + (Msg.txRequest fa fid txid).size_bytes }, [])) ∧
    (∀ (st : PeerState) (fa fid : PeerId) (sk : Sketch),
       RecSet.reconcile_with st.reconciliation_set sk = none →
       Peer.handleReconcileRequest st fa fid sk =
         ({ st with bytes_received :=
              st.bytes_received + (Msg.reconcileRequest fa fid sk).size_bytes }, [])) := by
  refine ⟨fun sg sid st m => (handleMsg_accounting sg sid st m).1, ?_, ?_, ?_, ?_⟩
  · intro st fa
    unfold Peer.handleConnect
    simp
  · intro st fa fid h
    unfold Peer.handleConnect
    by_cases hid : fid = st.id
    · simp [hid]
    · simp only [Peer.is_connected_to] at h
      simp [hid, Peer.is_connected_to, h]
  · intro st fa fid txid h
    unfold Peer.handleTxRequest
    simp [h]
  · intro st fa fid sk h
    unfold Peer.handleReconcileRequest
    simp [h]

/-- Oversized sketch: 129 ids cannot be decoded at capacity 128. -/
def c10BigSketch : Sketch := { capacity := 128, elems := List.range 129 }

/-- Witness for C10: the four drop cases at concrete inputs. -/
theorem c10_witness :
    Peer.handleConnect c5St (PeerId.Public 0) c5St.id =
      ({ c5St with bytes_received :=
           c5St.bytes_received + (Msg.connect (PeerId.Public 0) c5St.id).size_bytes },
       []) ∧
    Peer.handleConnect c5St (PeerId.Public 1) (PeerId.Public 1) =
      ({ c5St with bytes_received :=
           c5St.bytes_received + (Msg.connect (PeerId.Public 1) (PeerId.Public 1)).size_bytes },
       []) ∧
    Peer.handleTxRequest c5St (PeerId.Public 1) (PeerId.Public 1) 9 =
      ({ c5St with bytes_received :=
           c5St.bytes_received + (Msg.txRequest (PeerId.Public 1) (PeerId.Public 1) 9).size_bytes },
       []) ∧
    Peer.handleReconcileRequest c5St (PeerId.Public 1) (PeerId.Public 1) c10BigSketch =
      ({ c5St with bytes_received :=
           c5St.bytes_received +
             (Msg.reconcileRequest (PeerId.Public 1) (PeerId.Public 1) c10BigSketch).size_bytes },
       []) :=
  ⟨c10_dropped_still_counted.2.1 c5St (PeerId.Public 0),
   c10_dropped_still_counted.2.2.1 c5St (PeerId.Public 1) (PeerId.Public 1) (by decide),
   c10_dropped_still_counted.2.2.2.1 c5St (PeerId.Public 1) (PeerId.Public 1) 9 (by decide),
   c10_dropped_still_counted.2.2.2.2 c5St (PeerId.Public 1) (PeerId.Public 1) c10BigSketch
     (by decide)⟩

theorem sendsBytes_nil : sendsBytes [] = 0 := rfl

theorem sendsBytes_cons (e : PeerId × Msg) (l : List (PeerId × Msg)) :
    sendsBytes (e :: l) = e.2.size_bytes + sendsBytes l := by
  simp [sendsBytes]

theorem sendsBytes_append (l1 l2 : List (PeerId × Msg)) :
    sendsBytes (l1 ++ l2) = sendsBytes l1 + sendsBytes l2 := by
  simp [sendsBytes]

theorem sum_alInsert_proj (f : PeerState → Nat) (p : PeerId) :
    ∀ (ps : List (PeerId × PeerState)) (st st2 : PeerState),
    alLookup p ps = some st →
    ((alInsert p st2 ps).map (fun e => f e.2)).sum + f st =
      (ps.map (fun e => f e.2)).sum + f st2
  | [], st, st2, h => by simp [alLookup] at h
  | e :: es, st, st2, h => by
    by_cases he : e.1 = p
    · have hst : e.2 = st := by simpa [alLookup, he] using h
      subst hst
      simp [alInsert, he]
      omega
    · have h2 : alLookup p es = some st := by simpa [alLookup, he] using h
      have ih := sum_alInsert_proj f p es st st2 h2
      simp only [alInsert, if_neg he, List.map_cons, List.sum_cons]
      omega

theorem sendsBytes_eraseIdx :
    ∀ (l : List (PeerId × Msg)) (i : Nat) (tm : PeerId × Msg),
    l.get? i = some tm →
    sendsBytes (l.eraseIdx i) + tm.2.size_bytes = sendsBytes l
  | [], i, tm, h => by simp at h
  | e :: es, 0, tm, h => by
    have he : e = tm := by simpa using h
    subst he
    simp [List.eraseIdx, sendsBytes_cons]
    omega
  | e :: es, i + 1, tm, h => by
    have h2 : es.get? i = some tm := by simpa using h
    have ih := sendsBytes_eraseIdx es i tm h2
    simp only [List.eraseIdx, sendsBytes_cons]
    omega

theorem deliverAt_inv
    {sg : Nat → List (PeerId × PeerId) → List (PeerId × PeerId) × Nat}
    {sid : Tx → Nat} {s t : SysState} {i : Nat}
    (h : deliverAt sg sid s i = some t) :
    ∃ (tm : PeerId × Msg) (pst : PeerState),
      s.inflight.get? i = some tm ∧ alLookup tm.1 s.peers = some pst ∧
      t = { peers := alInsert tm.1 (Peer.handleMsg sg sid pst tm.2).1 s.peers,
            inflight := s.inflight.eraseIdx i ++ (Peer.handleMsg sg sid pst tm.2).2 } := by
  unfold deliverAt at h
  split at h
  · exact absurd h (by simp)
  · rename_i tm hg
    split at h
    · exact absurd h (by simp)
    · rename_i pst hl
      exact ⟨tm, pst, hg, hl, by simpa using h.symm⟩

theorem fireSeedTx_inv {tf : Nat → Tx} {gf : Nat → Nat} {s t : SysState} {p : PeerId}
    (h : fireSeedTx tf gf s p = some t) :
    ∃ pst : PeerState, alLookup p s.peers = some pst ∧
      ((Peer.is_public pst = true ∧ t = s) ∨
       (Peer.is_public pst = false ∧ pst.outbound = [] ∧
         t = { s with peers := alInsert p ({ pst with seed := gf pst.seed }) s.peers }) ∨
       (∃ e rest, Peer.is_public pst = false ∧ pst.outbound = e :: rest ∧
         t = { peers := alInsert p
                 ({ pst with
                      bytes_sent := pst.bytes_sent +
                        (Msg.peerTx pst.id (tf pst.seed)).size_bytes,
                      seed := gf pst.seed }) s.peers,
               inflight := s.inflight ++ [(e.2, Msg.peerTx pst.id (tf pst.seed))] })) := by
  unfold fireSeedTx at h
  split at h
  · exact absurd h (by simp)
  · rename_i pst hl
    refine ⟨pst, hl, ?_⟩
    by_cases hpub : Peer.is_public pst
    · rw [if_pos hpub] at h
      exact Or.inl ⟨hpub, by simpa using h.symm⟩
    · rw [if_neg hpub] at h
      cases ho : pst.outbound with
      | nil =>
        rw [ho] at h
        exact Or.inr (Or.inl ⟨by simpa using hpub, rfl, by simpa using h.symm⟩)
      | cons e rest =>
        rw [ho] at h
        exact Or.inr (Or.inr ⟨e, rest, by simpa using hpub, rfl, by simpa using h.symm⟩)

theorem fireReconcileRound_inv {s t : SysState} {p : PeerId}
    (h : fireReconcileRound s p = some t) :
    ∃ pst : PeerState, alLookup p s.peers = some pst ∧
      ((pst.use_reconciliation = false ∧ t = s) ∨
       (pst.use_reconciliation = true ∧
         t = { peers := alInsert p
                 ({ pst with
                      bytes_sent := pst.bytes_sent + sendsBytes
                        (pst.outbound.map (fun e =>
                          (e.2, Msg.reconcileRequest pst.id pst.id
                            (RecSet.sketchBytes pst.reconciliation_set)))) }) s.peers,
               inflight := s.inflight ++ pst.outbound.map (fun e =>
                 (e.2, Msg.reconcileRequest pst.id pst.id
                   (RecSet.sketchBytes pst.reconciliation_set))) })) := by
  unfold fireReconcileRound at h
  split at h
  · exact absurd h (by simp)
  · rename_i pst hl
    refine ⟨pst, hl, ?_⟩
    by_cases hur : pst.use_reconciliation
    · rw [if_pos hur] at h
      exact Or.inr ⟨hur, by simpa using h.symm⟩
    · rw [if_neg hur] at h
      exact Or.inl ⟨by simpa using hur, by simpa using h.symm⟩

theorem step_balance
    {sg : Nat → List (PeerId × PeerId) → List (PeerId × PeerId) × Nat}
    {sid : Tx → Nat} {tf : Nat → Tx} {gf : Nat → Nat} {s t : SysState}
    (h : SysStep sg sid tf gf s t) :
    recvTotal t + inflightBytes t + sentTotal s =
      recvTotal s + inflightBytes s + sentTotal t := by
  cases h with
  | deliver i h =>
    obtain ⟨tm, pst, hg, hl, ht⟩ := deliverAt_inv h
    subst ht
    obtain ⟨hrec, hsent⟩ := handleMsg_accounting sg sid pst tm.2
    have hS := sum_alInsert_proj (fun x => x.bytes_sent) tm.1 s.peers pst
      (Peer.handleMsg sg sid pst tm.2).1 hl
    have hR := sum_alInsert_proj (fun x => x.bytes_received) tm.1 s.peers pst
      (Peer.handleMsg sg sid pst tm.2).1 hl
    have hE := sendsBytes_eraseIdx s.inflight i tm hg
    simp only [recvTotal, sentTotal, inflightBytes, sendsBytes_append] at *
    omega
  | seedTx p h =>
    obtain ⟨pst, hl, hcase⟩ := fireSeedTx_inv h
    rcases hcase with ⟨hpub, ht⟩ | ⟨hpub, ho, ht⟩ | ⟨e, rest, hpub, ho, ht⟩ <;> subst ht
    · rfl
    · have hS := sum_alInsert_proj (fun x => x.bytes_sent) p s.peers pst
        ({ pst with seed := gf pst.seed }) hl
      have hR := sum_alInsert_proj (fun x => x.bytes_received) p s.peers pst
        ({ pst with seed := gf pst.seed }) hl
      simp only [recvTotal, sentTotal, inflightBytes] at *
      omega
    · have hS := sum_alInsert_proj (fun x => x.bytes_sent) p s.peers pst
        ({ pst with
             bytes_sent := pst.bytes_sent +
               (Msg.peerTx pst.id (tf pst.seed)).size_bytes,
             seed := gf pst.seed }) hl
      have hR := sum_alInsert_proj (fun x => x.bytes_received) p s.peers pst
        ({ pst with
             bytes_sent := pst.bytes_sent +
               (Msg.peerTx pst.id (tf pst.seed)).size_bytes,
             seed := gf pst.seed }) hl
      simp only [recvTotal, sentTotal, inflightBytes, sendsBytes_append,
        sendsBytes_cons, sendsBytes_nil] at *
      omega
  | reconcileRound p h =>
    obtain ⟨pst, hl, hcase⟩ := fireReconcileRound_inv h
    rcases hcase with ⟨hur, ht⟩ | ⟨hur, ht⟩ <;> subst ht
    · rfl
    · have hS := sum_alInsert_proj (fun x => x.bytes_sent) p s.peers pst
        ({ pst with
             bytes_sent := pst.bytes_sent + sendsBytes
               (pst.outbound.map (fun e =>
                 (e.2, Msg.reconcileRequest pst.id pst.id
                   (RecSet.sketchBytes pst.reconciliation_set)))) }) hl
      have hR := sum_alInsert_proj (fun x => x.bytes_received) p s.peers pst
        ({ pst with
             bytes_sent := pst.bytes_sent + sendsBytes
               (pst.outbound.map (fun e =>
                 (e.2, Msg.reconcileRequest pst.id pst.id
                   (RecSet.sketchBytes pst.reconciliation_set)))) }) hl
      simp only [recvTotal, sentTotal, inflightBytes, sendsBytes_append] at *
      omega

theorem reach_balance
    {sg : Nat → List (PeerId × PeerId) → List (PeerId × PeerId) × Nat}
    {sid : Tx → Nat} {tf : Nat → Tx} {gf : Nat → Nat} {s0 s : SysState}
    (h : Reach sg sid tf gf s0 s) :
    recvTotal s + inflightBytes s + sentTotal s0 =
      recvTotal s0 + inflightBytes s0 + sentTotal s := by
  induction h with
  | refl => rfl
  | tail hreach hstep ih =>
    have hb := step_balance hstep
    omega

/-- C7 amended: every message a peer emits is counted once at emission and
once at receipt with the same size_bytes table, so the quantity
recvTotal + inflightBytes - sentTotal is invariant along every execution;
since the harness-injected bootstrap Connect messages enter the initial
in-flight pool without any peer counting them as sent, a quiescent state
reached from the zero-counter initial state satisfies
recvTotal = sentTotal + (initial in-flight bytes) - the claim's equality
recvTotal = sentTotal holds exactly when nothing was injected. -/
theorem c7_conservation_amended
    (sg : Nat → List (PeerId × PeerId) → List (PeerId × PeerId) × Nat)
    (sid : Tx → Nat) (tf : Nat → Tx) (gf : Nat → Nat) {s0 s : SysState}
    (h : Reach sg sid tf gf s0 s) :
    (recvTotal s + inflightBytes s + sentTotal s0 =
      recvTotal s0 + inflightBytes s0 + sentTotal s) ∧
    (recvTotal s0 = 0 → sentTotal s0 = 0 → s.inflight = [] →
      recvTotal s = sentTotal s + inflightBytes s0) := by
  refine ⟨reach_balance h, fun h0r h0s hq => ?_⟩
  have hb := reach_balance h
  have hz : inflightBytes s = 0 := by
    simp [inflightBytes, hq, sendsBytes]
  omega

/-- PRNG stand-in for the seed-transaction payload. -/
def wTf : Nat → Tx := fun s => s

/-- PRNG stand-in for the advanced seed. -/
def wGf : Nat → Nat := fun s => s + 1

/-- The harness state for two public peers and no private peers. -/
def c7S0 : SysState := harnessInit 2 0 false

/-- Deliver the head in-flight message (used to unroll the bootstrap run). -/
def c7Step (s : SysState) : SysState := (deliverAt wShuffle wSid s 0).getD s

def c7S1 : SysState := c7Step c7S0

def c7S2 : SysState := c7Step c7S1

def c7S3 : SysState := c7Step c7S2

def c7S4 : SysState := c7Step c7S3

theorem c7run_reach : Reach wShuffle wSid wTf wGf c7S0 c7S4 := by
  have h1 : SysStep wShuffle wSid wTf wGf c7S0 c7S1 := SysStep.deliver 0 (by decide)
  have h2 : SysStep wShuffle wSid wTf wGf c7S1 c7S2 := SysStep.deliver 0 (by decide)
  have h3 : SysStep wShuffle wSid wTf wGf c7S2 c7S3 := SysStep.deliver 0 (by decide)
  have h4 : SysStep wShuffle wSid wTf wGf c7S3 c7S4 := SysStep.deliver 0 (by decide)
  exact Reach.tail (Reach.tail (Reach.tail (Reach.tail (Reach.refl _) h1) h2) h3) h4

/-- C7 counterexample: delivering the two harness-injected Connects of a
two-public-peer run (plus the two connect-back replies) reaches a quiescent
state with total bytes_sent 16 but total bytes_received 32: the bootstrap
messages are counted by their receivers but by no emitter. -/
theorem c7_conservation_counterexample :
    Reach wShuffle wSid wTf wGf c7S0 c7S4 ∧ c7S4.inflight = [] ∧
    sentTotal c7S4 = 16 ∧ recvTotal c7S4 = 32 ∧
    sentTotal c7S4 ≠ recvTotal c7S4 :=
  ⟨c7run_reach, by decide, by decide, by decide, by decide⟩

/-- Witness for C7 amended on the concrete bootstrap run. -/
theorem c7_witness :
    recvTotal c7S4 = sentTotal c7S4 + inflightBytes c7S0 :=
  (c7_conservation_amended wShuffle wSid wTf wGf c7run_reach).2
    (by decide) (by decide) (by decide)
